import Mathlib

/-!
# Verification of the Drive storage adapter (`cloud/storage/drive`)

Shallow embedding of the reference resolver + overwrite-safe blob store from
`cloud/storage/drive/drive.go`, together with proofs of the specified
properties.

Modelling conventions:
* The Google Drive backend is an external collaborator.  It is modelled as a
  list of file objects (`DriveFile`) in creation order together with a fresh-id
  counter.  A query by name returns the matching files in backend order, so
  "first match" is the oldest matching object.
* Backend/transport faults are injected through an explicit fault schedule
  (`Env`): each backend interaction consumes one entry; an exhausted schedule
  means the interaction succeeds.
* Errors carry the `op` string and the `errors.Kind` used by the Go code
  (`errors.E(op, kind, err)`).  `Kind.internal` is the kind the code attaches
  to bad construction options (the spec's "Invalid-configuration" class).
* The LRU cache `ids` (from `upspin.io/cache`, capacity `LRUSize = 60`) is
  modelled as an association list in most-recently-used-first order:
  `Get` promotes on hit, `Add` inserts at the front and truncates, `Remove`
  deletes the entry.
-/

namespace Drive

/-- The `upspin.io/errors` kinds used by this package. -/
inductive Kind where
  | notExist
  | io
  | internal
  | notSupported
  deriving DecidableEq, Repr

/-- A wrapped error as produced by `errors.E(op, kind, err)`: the operation
context string and the error kind. -/
structure Err where
  op : String
  kind : Kind
  deriving DecidableEq, Repr

/-- Errors that `fileId` can return unwrapped: `os.ErrNotExist`, or a raw
backend/transport error from the list call. -/
inductive FErr where
  | notExist
  | backend
  deriving DecidableEq, Repr

/-- A file object held by the Drive backend: its backend-assigned id, its
name, the space it lives in, and its content bytes. -/
structure DriveFile where
  id : String
  name : String
  space : String
  content : List Nat
  deriving DecidableEq, Repr

/-- Combined state: the backend's files (in creation order) and fresh-id
counter, plus the resolver's LRU cache entries (most recently used first). -/
structure St where
  files : List DriveFile
  nextId : Nat
  cacheE : List (String × String)
  deriving DecidableEq, Repr

/-- The initial state: empty backend, empty cache (as built by `New`). -/
def st0 : St := ⟨[], 0, []⟩

/-- Constant `LRUSize` from drive.go: capacity of the name-to-id cache. -/
def LRUSize : Nat := 60

/-- Backend-assigned opaque ids, one per creation, pairwise distinct and
never empty (the backend model's id generator). -/
def mkId (n : Nat) : String := String.mk (List.replicate (n + 1) 'x')

/-- Lookup part of `cache.LRU.Get`: the cached id for `k`, if present. -/
def lruGet (es : List (String × String)) (k : String) : Option String :=
  (es.find? (fun e => e.1 == k)).map (·.2)

/-- Promotion part of `cache.LRU.Get`: a hit moves the entry to the front. -/
def lruTouch (es : List (String × String)) (k : String) : List (String × String) :=
  match es.find? (fun e => e.1 == k) with
  | none => es
  | some e => e :: es.filter (fun e' => e'.1 != k)

/-- Operation `cache.LRU.Add`: insert at the front, dropping any previous binding of
the key, and evict beyond `LRUSize` by recency. -/
def lruAdd (es : List (String × String)) (k v : String) : List (String × String) :=
  ((k, v) :: es.filter (fun e => e.1 != k)).take LRUSize

/-- Operation `cache.LRU.Remove`: drop the binding of `k`. -/
def lruRemove (es : List (String × String)) (k : String) : List (String × String) :=
  es.filter (fun e => e.1 != k)

/-- The fault schedule: one `Bool` per backend interaction, `true` meaning
the interaction succeeds.  An exhausted schedule means success. -/
def Env : Type := List Bool

/-- Consume the next fault-schedule entry. -/
def Env.take : Env → Bool × Env
  | [] => (true, [])
  | b :: r => (b, r)

/-- Backend query `files.List().Spaces("appDataFolder").Q(name='<ref>').Fields(files(id))`:
ids of the files in the appDataFolder space whose name equals `name`, in
backend order. -/
def queryByName (s : St) (name : String) : List String :=
  (s.files.filter (fun f => f.space == "appDataFolder" && f.name == name)).map (·.id)

/-- Backend `files.Delete(id)`: remove the object with that id. -/
def backendDelete (s : St) (id : String) : St :=
  { s with files := s.files.filter (fun f => f.id != id) }

/-- Backend `files.Create(&drive.File{Name: ref, Parents: ["appDataFolder"]}).Media(contents)`:
append a fresh object carrying the name, scoped to the appDataFolder space. -/
def backendCreate (s : St) (name : String) (content : List Nat) : St :=
  { s with
    files := s.files ++ [⟨mkId s.nextId, name, "appDataFolder", content⟩]
    nextId := s.nextId + 1 }

/-- Backend `files.Get(id).Download()` body: the content of the object with
that id, if it exists. -/
def getContent (s : St) (id : String) : Option (List Nat) :=
  (s.files.find? (fun f => f.id == id)).map (·.content)

/-- Method `driveImpl.fileId`: try the cache; on a miss issue the backend list
query; empty result is `os.ErrNotExist`; otherwise cache and return the
first match's id. -/
def fileId (s : St) (name : String) (env : Env) : Except FErr String × St × Env :=
  match lruGet s.cacheE name with
  | some id => (.ok id, { s with cacheE := lruTouch s.cacheE name }, env)
  | none =>
    let t := env.take
    if t.1 then
      match queryByName s name with
      | [] => (.error .notExist, s, t.2)
      | id :: _ => (.ok id, { s with cacheE := lruAdd s.cacheE name id }, t.2)
    else (.error .backend, s, t.2)

/-- Method `driveImpl.Download`: resolve the name (NotExist is wrapped as such, any
other error as IO), then fetch the content by id and drain the body; both
the fetch and the read can fail with IO. -/
def Download (s : St) (ref : String) (env : Env) : Except Err (List Nat) × St × Env :=
  match fileId s ref env with
  | (.error .notExist, s, env) => (.error ⟨"cloud/storage/drive.Download", .notExist⟩, s, env)
  | (.error .backend, s, env) => (.error ⟨"cloud/storage/drive.Download", .io⟩, s, env)
  | (.ok id, s, env) =>
    let t := env.take
    if t.1 then
      match getContent s id with
      | none => (.error ⟨"cloud/storage/drive.Download", .io⟩, s, t.2)
      | some content =>
        let t2 := t.2.take
        if t2.1 then (.ok content, s, t2.2)
        else (.error ⟨"cloud/storage/drive.Download", .io⟩, s, t2.2)
    else (.error ⟨"cloud/storage/drive.Download", .io⟩, s, t.2)

/-- Method `driveImpl.Delete`.  Note: the Go source sets
`const op = "cloud/storage/drive.Download"` inside `Delete`, so the errors
it wraps carry the Download operation context; the embedding keeps this.
The backend delete fails when the id does not exist or when a fault is
injected; the cache entry is removed only after a successful delete. -/
def Delete (s : St) (ref : String) (env : Env) : Except Err Unit × St × Env :=
  match fileId s ref env with
  | (.error .notExist, s, env) => (.ok (), s, env)
  | (.error .backend, s, env) => (.error ⟨"cloud/storage/drive.Download", .io⟩, s, env)
  | (.ok id, s, env) =>
    let t := env.take
    if t.1 && s.files.any (fun f => f.id == id) then
      (.ok (), { backendDelete s id with cacheE := lruRemove s.cacheE ref }, t.2)
    else (.error ⟨"cloud/storage/drive.Download", .io⟩, s, t.2)

/-- Method `driveImpl.Put`: resolve the name, treating NotExist as "no prior
object" and any other resolution error as IO; if an id was found, delete it
through `Delete` (whose error is returned as-is); then create the new object
with the given name in appDataFolder. -/
def Put (s : St) (ref : String) (contents : List Nat) (env : Env) : Except Err Unit × St × Env :=
  match fileId s ref env with
  | (.error .backend, s, env) => (.error ⟨"cloud/storage/drive.Put", .io⟩, s, env)
  | (r, s, env) =>
    let id := match r with | .ok id => id | .error _ => ""
    if id != "" then
      match Delete s ref env with
      | (.ok _, s, env) =>
        let t := env.take
        if t.1 then (.ok (), backendCreate s ref contents, t.2)
        else (.error ⟨"cloud/storage/drive.Put", .io⟩, s, t.2)
      | (.error e, s, env) => (.error e, s, env)
    else
      let t := env.take
      if t.1 then (.ok (), backendCreate s ref contents, t.2)
      else (.error ⟨"cloud/storage/drive.Put", .io⟩, s, t.2)

/-- Option lookup in the construction options (`o.Opts[k]` presence). -/
def lookupOpt (opts : List (String × String)) (k : String) : Option String :=
  (opts.find? (fun e => e.1 == k)).map (·.2)

/-- Constructor `New`: require `accessToken`, `tokenType`, `refreshToken`, and a
parseable `expiry` (a missing expiry looks up as the empty string, which the
RFC3339 parser rejects); building the drive client can also fail.  On
success the store starts with an empty cache.  `parseExpiry` models the
external `time.Parse(time.RFC3339, ·)` and `svcOk` whether `drive.New`
succeeds. -/
def New (parseExpiry : String → Option Nat) (svcOk : Bool)
    (opts : List (String × String)) : Except Err (List (String × String)) :=
  match lookupOpt opts "accessToken" with
  | none => .error ⟨"cloud/storage/drive.New", .internal⟩
  | some _ =>
    match lookupOpt opts "tokenType" with
    | none => .error ⟨"cloud/storage/drive.New", .internal⟩
    | some _ =>
      match lookupOpt opts "refreshToken" with
      | none => .error ⟨"cloud/storage/drive.New", .internal⟩
      | some _ =>
        match parseExpiry ((lookupOpt opts "expiry").getD "") with
        | none => .error ⟨"cloud/storage/drive.New", .internal⟩
        | some _ => if svcOk then .ok [] else .error ⟨"cloud/storage/drive.New", .internal⟩

/-! ## The Lister (spec §4.6)

The repository's test file casts the store to `storage.Lister` and calls
`List("")`, but the `List` method itself is not among the available sources,
so it is modelled from the spec. -/

/-- Modelled from the spec: the page size of the backend's paginated list
call (the spec leaves the size to the backend; any fixed positive size). -/
def listPageSize : Nat := 100

/-- Modelled from the spec: encoding of the opaque continuation token.  The
empty token denotes the start of the enumeration (and, as a next token, the
final page). -/
def encodeToken (i : Nat) : String := String.mk (List.replicate i 't')

/-- Modelled from the spec: decoding of the opaque continuation token. -/
def decodeToken (t : String) : Nat := t.data.length

/-- Modelled from the spec: the missing `driveImpl.List` method
(`storage.Lister`).  Stateless pass-through to backend pagination: one page
of (BackendID, sizeBytes) items starting at the token's position, plus the
next token; the next token is empty exactly on the final page. -/
def listObjects (s : St) (token : String) : List (String × Nat) × String :=
  let i := decodeToken token
  (((s.files.drop i).take listPageSize).map (fun f => (f.id, f.content.length)),
   if i + listPageSize < s.files.length then encodeToken (i + listPageSize) else "")

/-- Repeatedly call `listObjects`, following next tokens until the empty
token, accumulating the items (with fuel for termination). -/
def listWalk (s : St) (token : String) : Nat → List (String × Nat)
  | 0 => []
  | fuel + 1 =>
    let p := listObjects s token
    if p.2 = "" then p.1 else p.1 ++ listWalk s p.2 fuel

/-! ## The query filter string (drive.go line 161)

`fileId` builds the list query as `fmt.Sprintf("name='%s'", name)`.  The
Drive query language's exact-name filter is `name='<literal>'` where the
literal contains no unescaped single quote; `parseNameQuery` recovers the
literal from a well-formed exact-name filter.  Characters are used directly
so the parser is by plain list recursion. -/

/-- The query filter built by `fileId`, on character lists:
`"name='" ++ name ++ "'"`. -/
def mkQuery (name : List Char) : List Char :=
  "name='".data ++ name ++ ['\'']

/-- Take the longest quote-free prefix. -/
def takeNoQuote : List Char → List Char
  | [] => []
  | c :: cs => if c = '\'' then [] else c :: takeNoQuote cs

/-- Drop through the longest quote-free prefix. -/
def dropNoQuote : List Char → List Char
  | [] => []
  | c :: cs => if c = '\'' then c :: cs else dropNoQuote cs

/-- The exact-name filters of the backend query language: `name='<literal>'`
with a quote-free literal.  Returns the literal the filter matches names
against, or `none` when the string is not a well-formed exact-name filter. -/
def parseNameQuery (q : List Char) : Option (List Char) :=
  if "name='".data.isPrefixOf q then
    let rest := q.drop 6
    if dropNoQuote rest = ['\''] then some (takeNoQuote rest) else none
  else none

/-! ## Basic lemmas -/

theorem mkId_ne_empty (n : Nat) : mkId n ≠ "" := by
  intro h
  have hd := congrArg String.data h
  simp [mkId] at hd

theorem mkId_injective {m n : Nat} (h : mkId m = mkId n) : m = n := by
  have hd := congrArg String.data h
  simp [mkId] at hd
  exact hd

theorem eq_of_length_le_one {α : Type} {l : List α} {a b : α}
    (h : l.length ≤ 1) (ha : a ∈ l) (hb : b ∈ l) : a = b := by
  match l with
  | [] => cases ha
  | [x] =>
    rw [List.mem_singleton] at ha hb
    rw [ha, hb]
  | x :: y :: t => simp at h

theorem lruGet_some_mem {es : List (String × String)} {k v : String}
    (h : lruGet es k = some v) : (k, v) ∈ es := by
  unfold lruGet at h
  cases hf : es.find? (fun e => e.1 == k) with
  | none => rw [hf] at h; simp at h
  | some e =>
    rw [hf] at h
    simp at h
    have hm := List.mem_of_find?_eq_some hf
    have hp := List.find?_some hf
    simp at hp
    have : e = (k, v) := by
      cases e
      simp_all
    rw [this] at hm
    exact hm

theorem lruGet_none_iff {es : List (String × String)} {k : String} :
    lruGet es k = none ↔ ∀ e ∈ es, e.1 ≠ k := by
  unfold lruGet
  simp [List.find?_eq_none]

theorem lruGet_lruTouch_self {es : List (String × String)} {k v : String}
    (h : lruGet es k = some v) : lruGet (lruTouch es k) k = some v := by
  unfold lruGet at h ⊢
  unfold lruTouch
  cases hf : es.find? (fun e => e.1 == k) with
  | none => rw [hf] at h; simp at h
  | some e =>
    rw [hf] at h
    simp at h
    have hp := List.find?_some hf
    simp [List.find?, hp, h]

theorem mem_lruTouch {es : List (String × String)} {k : String} {e : String × String}
    (h : e ∈ lruTouch es k) : e ∈ es := by
  unfold lruTouch at h
  cases hf : es.find? (fun x => x.1 == k) with
  | none => rw [hf] at h; exact h
  | some x =>
    rw [hf] at h
    rcases List.mem_cons.mp h with h | h
    · rw [h]; exact List.mem_of_find?_eq_some hf
    · exact List.mem_of_mem_filter h

theorem mem_lruAdd {es : List (String × String)} {k v : String} {e : String × String}
    (h : e ∈ lruAdd es k v) : e = (k, v) ∨ e ∈ es := by
  unfold lruAdd at h
  have h' := List.mem_of_mem_take h
  rcases List.mem_cons.mp h' with h' | h'
  · exact Or.inl h'
  · exact Or.inr (List.mem_of_mem_filter h')

theorem mem_lruRemove {es : List (String × String)} {k : String} {e : String × String}
    (h : e ∈ lruRemove es k) : e ∈ es ∧ e.1 ≠ k := by
  unfold lruRemove at h
  have hm := List.mem_of_mem_filter h
  have hp := List.of_mem_filter h
  simp at hp
  exact ⟨hm, hp⟩

theorem lruGet_lruRemove_self {es : List (String × String)} {k : String} :
    lruGet (lruRemove es k) k = none := by
  rw [lruGet_none_iff]
  intro e he
  exact (mem_lruRemove he).2

theorem lruGet_lruAdd_self {es : List (String × String)} {k v : String} :
    lruGet (lruAdd es k v) k = some v := by
  unfold lruGet lruAdd
  simp [LRUSize, List.find?]

/-! ## The state invariant -/

/-- Invariant of reachable states: backend ids are freshly generated (hence
nonempty and pairwise distinct), every object lives in the appDataFolder
space, each name has at most one object, and every cache entry points at an
existing object carrying that name. -/
structure Inv (s : St) : Prop where
  ids_form : ∀ f ∈ s.files, ∃ k, k < s.nextId ∧ f.id = mkId k
  ids_nodup : (s.files.map (·.id)).Nodup
  space_ok : ∀ f ∈ s.files, f.space = "appDataFolder"
  one_per_name : ∀ n : String, (s.files.filter (fun f => f.name == n)).length ≤ 1
  cache_ok : ∀ e ∈ s.cacheE, ∃ f ∈ s.files, f.id = e.2 ∧ f.name = e.1

theorem inv_st0 : Inv st0 := by
  constructor <;> simp [st0]

theorem Inv.id_inj {s : St} (hs : Inv s) {f g : DriveFile}
    (hf : f ∈ s.files) (hg : g ∈ s.files) (h : f.id = g.id) : f = g :=
  List.inj_on_of_nodup_map hs.ids_nodup hf hg h

theorem Inv.id_ne_empty {s : St} (hs : Inv s) {f : DriveFile}
    (hf : f ∈ s.files) : f.id ≠ "" := by
  obtain ⟨k, _, hk⟩ := hs.ids_form f hf
  rw [hk]
  exact mkId_ne_empty k

theorem queryByName_eq {s : St} (hs : ∀ f ∈ s.files, f.space = "appDataFolder")
    (n : String) :
    queryByName s n = ((s.files.filter (fun f => f.name == n)).map (·.id)) := by
  unfold queryByName
  congr 1
  apply List.filter_congr
  intro f hf
  simp [hs f hf]

theorem queryByName_empty_iff {s : St} (hs : Inv s) (n : String) :
    queryByName s n = [] ↔ ∀ f ∈ s.files, f.name ≠ n := by
  rw [queryByName_eq hs.space_ok]
  simp [List.filter_eq_nil_iff]

theorem query_head_mem {s : St} {n id : String} {rest : List String}
    (h : queryByName s n = id :: rest) : ∃ f ∈ s.files, f.id = id ∧ f.name = n := by
  unfold queryByName at h
  cases hq : s.files.filter (fun f => f.space == "appDataFolder" && f.name == n) with
  | nil => rw [hq] at h; simp at h
  | cons f t =>
    rw [hq] at h
    simp at h
    have hf : f ∈ s.files.filter (fun f => f.space == "appDataFolder" && f.name == n) := by
      rw [hq]; exact List.mem_cons_self f t
    have hm := List.mem_of_mem_filter hf
    have hp := List.of_mem_filter hf
    simp at hp
    exact ⟨f, hm, h.1, hp.2⟩

/-! ## `fileId` characterization -/

theorem fileId_files (s : St) (name : String) (env : Env) :
    (fileId s name env).2.1.files = s.files ∧ (fileId s name env).2.1.nextId = s.nextId := by
  unfold fileId
  cases h : lruGet s.cacheE name with
  | some id => simp
  | none =>
    simp only []
    split
    · split <;> simp
    · simp

theorem fileId_ok_cached {s s1 : St} {name id : String} {env env1 : Env}
    (h : fileId s name env = (.ok id, s1, env1)) :
    lruGet s1.cacheE name = some id := by
  unfold fileId at h
  cases hc : lruGet s.cacheE name with
  | some v =>
    rw [hc] at h
    simp at h
    obtain ⟨h1, h2, h3⟩ := h
    rw [← h2]
    simp only []
    rw [h1] at hc
    exact lruGet_lruTouch_self hc
  | none =>
    rw [hc] at h
    simp only [] at h
    split at h
    · cases hq : queryByName s name with
      | nil => rw [hq] at h; simp at h
      | cons i t =>
        rw [hq] at h
        simp at h
        obtain ⟨h1, h2, h3⟩ := h
        rw [← h2, ← h1]
        simp only []
        exact lruGet_lruAdd_self
    · simp at h

theorem fileId_ok_named {s s1 : St} {name id : String} {env env1 : Env}
    (hs : Inv s) (h : fileId s name env = (.ok id, s1, env1)) :
    ∃ f ∈ s.files, f.id = id ∧ f.name = name := by
  unfold fileId at h
  cases hc : lruGet s.cacheE name with
  | some v =>
    rw [hc] at h
    simp at h
    obtain ⟨h1, _, _⟩ := h
    have hm := lruGet_some_mem hc
    obtain ⟨f, hf, hid, hn⟩ := hs.cache_ok _ hm
    exact ⟨f, hf, by rw [hid, h1], hn⟩
  | none =>
    rw [hc] at h
    simp only [] at h
    split at h
    · cases hq : queryByName s name with
      | nil => rw [hq] at h; simp at h
      | cons i t =>
        rw [hq] at h
        simp at h
        obtain ⟨h1, _, _⟩ := h
        rw [← h1]
        exact query_head_mem hq
    · simp at h

theorem fileId_ok_ne_empty {s s1 : St} {name id : String} {env env1 : Env}
    (hs : Inv s) (h : fileId s name env = (.ok id, s1, env1)) : id ≠ "" := by
  obtain ⟨f, hf, hid, _⟩ := fileId_ok_named hs h
  rw [← hid]
  exact hs.id_ne_empty hf

theorem fileId_notExist {s s1 : St} {name : String} {env env1 : Env}
    (h : fileId s name env = (.error .notExist, s1, env1)) :
    s1 = s ∧ queryByName s name = [] ∧ lruGet s.cacheE name = none ∧
      env1 = env.take.2 := by
  unfold fileId at h
  cases hc : lruGet s.cacheE name with
  | some v => rw [hc] at h; simp at h
  | none =>
    rw [hc] at h
    simp only [] at h
    split at h
    · cases hq : queryByName s name with
      | nil =>
        rw [hq] at h
        simp at h
        exact ⟨h.1.symm, rfl, rfl, h.2.symm⟩
      | cons i t => rw [hq] at h; simp at h
    · simp at h

theorem fileId_nil_env (s : St) (name : String) :
    (fileId s name []).2.2 = [] := by
  unfold fileId
  cases hc : lruGet s.cacheE name with
  | some v => simp
  | none =>
    simp only []
    split
    · split <;> simp [Env.take]
    · simp [Env.take]

theorem fileId_inv {s : St} (hs : Inv s) (name : String) (env : Env) :
    Inv (fileId s name env).2.1 := by
  unfold fileId
  cases hc : lruGet s.cacheE name with
  | some v =>
    simp only []
    constructor
    · exact hs.ids_form
    · exact hs.ids_nodup
    · exact hs.space_ok
    · exact hs.one_per_name
    · intro e he
      exact hs.cache_ok e (mem_lruTouch he)
  | none =>
    simp only []
    split
    · cases hq : queryByName s name with
      | nil => simpa using hs
      | cons i t =>
        simp only []
        constructor
        · exact hs.ids_form
        · exact hs.ids_nodup
        · exact hs.space_ok
        · exact hs.one_per_name
        · intro e he
          rcases mem_lruAdd he with he | he
          · obtain ⟨f, hf, hid, hn⟩ := query_head_mem hq
            rw [he]
            exact ⟨f, hf, hid, hn⟩
          · exact hs.cache_ok e he
    · simpa using hs

/-! ## Invariant preservation -/

theorem delete_inv {s : St} (hs : Inv s) (ref : String) (env : Env) :
    Inv (Delete s ref env).2.1 := by
  have hfi := fileId_inv hs ref env
  have hff := fileId_files s ref env
  unfold Delete
  rcases hf : fileId s ref env with ⟨r, s1, env1⟩
  rw [hf] at hfi hff
  rcases r with e | id
  · cases e <;> simpa using hfi
  · simp only []
    split
    · rename_i hcond
      obtain ⟨g, hg, hgid, hgname⟩ := fileId_ok_named hs hf
      constructor
      · intro f hfm
        simp only [backendDelete] at hfm ⊢
        exact hfi.ids_form f (List.mem_of_mem_filter hfm)
      · simp only [backendDelete]
        exact hfi.ids_nodup.sublist (List.Sublist.map _ (List.filter_sublist _))
      · intro f hfm
        simp only [backendDelete] at hfm
        exact hfi.space_ok f (List.mem_of_mem_filter hfm)
      · intro n
        simp only [backendDelete]
        calc ((s1.files.filter (fun f => f.id != id)).filter (fun f => f.name == n)).length
            ≤ (s1.files.filter (fun f => f.name == n)).length :=
              ((List.filter_sublist _).filter _).length_le
          _ ≤ 1 := hfi.one_per_name n
      · intro e he
        simp only [backendDelete]
        obtain ⟨hmem, hne⟩ := mem_lruRemove he
        obtain ⟨f, hfm, hfid, hfname⟩ := hfi.cache_ok e hmem
        refine ⟨f, ?_, hfid, hfname⟩
        rw [List.mem_filter]
        refine ⟨hfm, ?_⟩
        simp only [bne_iff_ne, ne_eq, decide_not]
        simp only [decide_eq_true_eq] at *
        intro hcontra
        have hfs : f ∈ s.files := hff.1 ▸ hfm
        have hgs : g ∈ s.files := hg
        have : f = g := hs.id_inj hfs hgs (by rw [hcontra, hgid])
        rw [this] at hfname
        exact hne (by rw [← hfname, hgname])
    · simpa using hfi

theorem delete_ok_no_ref {s s2 : St} {ref : String} {env env2 : Env} {u : Unit}
    (hs : Inv s) (h : Delete s ref env = (.ok u, s2, env2)) :
    ∀ f ∈ s2.files, f.name ≠ ref := by
  have hff := fileId_files s ref env
  unfold Delete at h
  rcases hf : fileId s ref env with ⟨r, s1, env1⟩
  rw [hf] at h hff
  rcases r with e | id
  · cases e
    · simp at h
      obtain ⟨hs2, _⟩ := h
      obtain ⟨hs1, hq, _⟩ := fileId_notExist hf
      rw [← hs2, hs1]
      exact (queryByName_empty_iff hs ref).mp (hs1 ▸ hq)
    · simp at h
  · simp only [] at h
    split at h
    · simp at h
      obtain ⟨hs2, _⟩ := h
      obtain ⟨g, hg, hgid, hgname⟩ := fileId_ok_named hs hf
      intro f hfm hfname
      rw [← hs2] at hfm
      simp only [backendDelete] at hfm
      rw [List.mem_filter] at hfm
      obtain ⟨hfm1, hfm2⟩ := hfm
      have hfs : f ∈ s.files := hff.1 ▸ hfm1
      have hboth : ∀ x ∈ [f, g] , x ∈ s.files.filter (fun f => f.name == ref) := by
        intro x hx
        rw [List.mem_filter]
        rcases List.mem_cons.mp hx with hx | hx
        · rw [hx]; exact ⟨hfs, by simp [hfname]⟩
        · rw [List.mem_singleton] at hx
          rw [hx]; exact ⟨hg, by simp [hgname]⟩
      have hfg : f = g :=
        eq_of_length_le_one (hs.one_per_name ref)
          (hboth f (by simp)) (hboth g (by simp))
      rw [hfg] at hfm2
      simp [hgid] at hfm2
    · simp at h

theorem delete_ok_cache_none {s s2 : St} {ref : String} {env env2 : Env} {u : Unit}
    (h : Delete s ref env = (.ok u, s2, env2)) :
    lruGet s2.cacheE ref = none := by
  unfold Delete at h
  rcases hf : fileId s ref env with ⟨r, s1, env1⟩
  rw [hf] at h
  rcases r with e | id
  · cases e
    · simp at h
      obtain ⟨hs2, _⟩ := h
      obtain ⟨hs1, _, hcache, _⟩ := fileId_notExist hf
      rw [← hs2, hs1]
      exact hcache
    · simp at h
  · simp only [] at h
    split at h
    · simp at h
      obtain ⟨hs2, _⟩ := h
      rw [← hs2]
      exact lruGet_lruRemove_self
    · simp at h

theorem create_inv {s : St} (hs : Inv s) {ref : String} (c : List Nat)
    (hno : ∀ f ∈ s.files, f.name ≠ ref) : Inv (backendCreate s ref c) := by
  constructor
  · intro f hfm
    simp only [backendCreate] at hfm ⊢
    rcases List.mem_append.mp hfm with hfm | hfm
    · obtain ⟨k, hk, hid⟩ := hs.ids_form f hfm
      exact ⟨k, Nat.lt_succ_of_lt hk, hid⟩
    · rw [List.mem_singleton] at hfm
      exact ⟨s.nextId, Nat.lt_succ_self _, by rw [hfm]⟩
  · simp only [backendCreate, List.map_append, List.map_cons, List.map_nil]
    rw [List.nodup_append]
    refine ⟨hs.ids_nodup, List.nodup_singleton _, ?_⟩
    intro x hx hx'
    rw [List.mem_singleton] at hx'
    rw [List.mem_map] at hx
    obtain ⟨f, hfm, hfid⟩ := hx
    obtain ⟨k, hk, hid⟩ := hs.ids_form f hfm
    rw [← hfid, hid] at hx'
    exact Nat.lt_irrefl _ (mkId_injective hx' ▸ hk)
  · intro f hfm
    simp only [backendCreate] at hfm
    rcases List.mem_append.mp hfm with hfm | hfm
    · exact hs.space_ok f hfm
    · rw [List.mem_singleton] at hfm
      rw [hfm]
  · intro n
    simp only [backendCreate, List.filter_append]
    by_cases hn : ref = n
    · have h1 : s.files.filter (fun f => f.name == n) = [] := by
        rw [List.filter_eq_nil_iff]
        intro f hfm
        simp [hn ▸ hno f hfm]
      rw [h1, List.nil_append]
      exact (List.length_filter_le _ _).trans (by simp)
    · have h2 : List.filter (fun f => f.name == n)
          [(⟨mkId s.nextId, ref, "appDataFolder", c⟩ : DriveFile)] = [] := by
        simp [hn]
      rw [h2, List.append_nil]
      exact hs.one_per_name n
  · intro e he
    obtain ⟨f, hfm, hfid, hfname⟩ := hs.cache_ok e he
    exact ⟨f, by simp only [backendCreate]; exact List.mem_append.mpr (Or.inl hfm),
      hfid, hfname⟩

theorem put_inv {s : St} (hs : Inv s) (ref : String) (c : List Nat) (env : Env) :
    Inv (Put s ref c env).2.1 := by
  have hfi := fileId_inv hs ref env
  have hff := fileId_files s ref env
  unfold Put
  rcases hf : fileId s ref env with ⟨r, s1, env1⟩
  rw [hf] at hfi hff
  rcases r with e | id
  · cases e
    · simp only []
      have hne : (("" : String) != "") = false := by simp
      rw [hne]
      simp only [Bool.false_eq_true, if_false]
      split
      · obtain ⟨hs1, hq, _⟩ := fileId_notExist hf
        exact create_inv hfi c (by rw [hs1]; exact (queryByName_empty_iff hs ref).mp hq)
      · simpa using hfi
    · simpa using hfi
  · simp only []
    have hne : (id != "") = true := by
      simp [bne_iff_ne]
      exact fileId_ok_ne_empty hs hf
    rw [hne]
    simp only [if_true]
    have hdi := delete_inv hfi ref env1
    rcases hd : Delete s1 ref env1 with ⟨rd, s2, env2⟩
    rw [hd] at hdi
    rcases rd with ed | ud
    · simpa using hdi
    · simp only []
      split
      · exact create_inv hdi c (delete_ok_no_ref hfi hd)
      · simpa using hdi

theorem download_inv {s : St} (hs : Inv s) (ref : String) (env : Env) :
    Inv (Download s ref env).2.1 := by
  have hfi := fileId_inv hs ref env
  unfold Download
  rcases hf : fileId s ref env with ⟨r, s1, env1⟩
  rw [hf] at hfi
  rcases r with e | id
  · cases e <;> simpa using hfi
  · simp only []
    split
    · split
      · simpa using hfi
      · split <;> simpa using hfi
    · simpa using hfi

/-! ## Reachable states -/

/-- States reachable from the freshly constructed store by any sequence of
operations through the resolver, under any fault schedules. -/
inductive Reach : St → Prop
  | init : Reach st0
  | put {s : St} (ref : String) (c : List Nat) (env : Env) :
      Reach s → Reach (Put s ref c env).2.1
  | del {s : St} (ref : String) (env : Env) :
      Reach s → Reach (Delete s ref env).2.1
  | down {s : St} (ref : String) (env : Env) :
      Reach s → Reach (Download s ref env).2.1

theorem reach_inv {s : St} (h : Reach s) : Inv s := by
  induction h with
  | init => exact inv_st0
  | put ref c env _ ih => exact put_inv ih ref c env
  | del ref env _ ih => exact delete_inv ih ref env
  | down ref env _ ih => exact download_inv ih ref env

/-! ## Error shape helpers -/

theorem delete_err {s : St} {ref : String} {env : Env} {e : Err}
    (h : (Delete s ref env).1 = .error e) :
    e.kind = Kind.io ∧ e.op = "cloud/storage/drive.Download" := by
  unfold Delete at h
  rcases hf : fileId s ref env with ⟨r, s1, env1⟩
  rw [hf] at h
  rcases r with er | id
  · cases er
    · simp at h
    · simp at h
      rw [← h]
      exact ⟨rfl, rfl⟩
  · simp only [] at h
    split at h
    · simp at h
    · simp at h
      rw [← h]
      exact ⟨rfl, rfl⟩

/-! ## Claim theorems -/

/-- C3: over every sequence of operations through this resolver, the name
cache never holds an ID for a deleted (indeed, for any nonexistent) object:
every cache entry points at an existing backend object carrying that name;
and after a successful `Delete ref`, the cache holds no entry for `ref` and
an internal `fileId ref` (with a healthy backend) re-queries and gets
NotFound rather than a stale cached ID. -/
theorem c3_cache_never_stale {s : St} (hs : Reach s) :
    (∀ e ∈ s.cacheE, ∃ f ∈ s.files, f.id = e.2 ∧ f.name = e.1) ∧
    (∀ (ref : String) (env env2 : Env) (u : Unit) (s2 : St),
      Delete s ref env = (.ok u, s2, env2) →
      lruGet s2.cacheE ref = none ∧
      (fileId s2 ref []).1 = .error .notExist) := by
  have hi := reach_inv hs
  refine ⟨hi.cache_ok, ?_⟩
  intro ref env env2 u s2 hd
  have hcn : lruGet s2.cacheE ref = none := delete_ok_cache_none hd
  refine ⟨hcn, ?_⟩
  have hno := delete_ok_no_ref hi hd
  have hs2i : Inv s2 := by
    have h2 := delete_inv hi ref env
    rw [hd] at h2
    exact h2
  have hq : queryByName s2 ref = [] := (queryByName_empty_iff hs2i ref).mpr hno
  unfold fileId
  rw [hcn]
  simp [Env.take, hq]

/-- Witness for C3 at a concrete reachable state: store "a", then delete it;
the cache holds nothing for "a" and resolution reports NotFound. -/
theorem c3_witness :
    lruGet (Delete (Put st0 "a" [1] []).2.1 "a" []).2.1.cacheE "a" = none ∧
    (fileId (Delete (Put st0 "a" [1] []).2.1 "a" []).2.1 "a" []).1 =
      .error .notExist :=
  (c3_cache_never_stale (Reach.put "a" [1] [] Reach.init)).2 "a" []
    (Delete (Put st0 "a" [1] []).2.1 "a" []).2.2 ()
    (Delete (Put st0 "a" [1] []).2.1 "a" []).2.1 rfl

/-- C1: `Put` first resolves the name, treating NotFound as "no prior
object" rather than an error (first conjunct: it proceeds to create); when
an ID was found it deletes that specific object before creating (second
conjunct: the object with that id is gone and the new object is appended
after it); the created object carries the name and lives in the
appDataFolder space; and every failure of `Put` carries the IO error kind
(third conjunct). -/
theorem c1_put_protocol (s : St) (ref : String) (contents : List Nat) (hs : Inv s) :
    (∀ s1 env1, fileId s ref [] = (.error .notExist, s1, env1) →
      (Put s ref contents []).1 = .ok () ∧
      (Put s ref contents []).2.1.files =
        s1.files ++ [⟨mkId s1.nextId, ref, "appDataFolder", contents⟩]) ∧
    (∀ id s1 env1, fileId s ref [] = (.ok id, s1, env1) →
      (Put s ref contents []).1 = .ok () ∧
      (Put s ref contents []).2.1.files =
        s1.files.filter (fun f => f.id != id) ++
          [⟨mkId s1.nextId, ref, "appDataFolder", contents⟩]) ∧
    (∀ (env : Env) (e : Err), (Put s ref contents env).1 = .error e →
      e.kind = Kind.io) := by
  refine ⟨?_, ?_, ?_⟩
  · intro s1 env1 hf
    obtain ⟨hs1, hq, hc, henv⟩ := fileId_notExist hf
    have henv1 : env1 = [] := by rw [henv]; rfl
    subst henv1
    unfold Put
    rw [hf]
    simp [Env.take, backendCreate]
  · intro id s1 env1 hf
    have henv1 : env1 = [] := by
      have h := fileId_nil_env s ref
      rw [hf] at h
      exact h
    subst henv1
    have hcached := fileId_ok_cached hf
    obtain ⟨g, hg, hgid, hgname⟩ := fileId_ok_named hs hf
    have hff := fileId_files s ref []
    rw [hf] at hff
    have hfid1 : fileId s1 ref [] =
        (.ok id, { s1 with cacheE := lruTouch s1.cacheE ref }, []) := by
      unfold fileId
      rw [hcached]
    have hany : (s1.files.any (fun f => f.id == id)) = true := by
      rw [List.any_eq_true]
      exact ⟨g, hff.1 ▸ hg, by simp [hgid]⟩
    have hdel : Delete s1 ref [] =
        (.ok (), { backendDelete { s1 with cacheE := lruTouch s1.cacheE ref } id with
          cacheE := lruRemove (lruTouch s1.cacheE ref) ref }, []) := by
      unfold Delete
      rw [hfid1]
      simp [Env.take, hany]
    have hne : (id != "") = true := by
      simp only [bne_iff_ne, ne_eq, decide_eq_true_eq]
      exact fileId_ok_ne_empty hs hf
    unfold Put
    rw [hf]
    simp only [hne, if_true]
    rw [hdel]
    simp [Env.take, backendCreate, backendDelete]
  · intro env e h
    unfold Put at h
    rcases hf : fileId s ref env with ⟨r, s1, env1⟩
    rw [hf] at h
    rcases r with er | id
    · cases er
      · simp only [] at h
        rw [show (("" : String) != "") = false from rfl] at h
        simp only [Bool.false_eq_true, if_false] at h
        split at h
        · simp at h
        · simp at h
          rw [← h]
      · simp at h
        rw [← h]
    · simp only [] at h
      split at h
      · rcases hd : Delete s1 ref env1 with ⟨rd, s2, env2⟩
        rw [hd] at h
        rcases rd with ed | ud
        · simp at h
          have := delete_err (e := ed) (by rw [hd])
          rw [← h]
          exact this.1
        · simp only [] at h
          split at h
          · simp at h
          · simp at h
            rw [← h]
      · split at h
        · simp at h
        · simp at h
          rw [← h]

/-- Witness for C1: at the reachable state holding one object named "a",
resolving finds it, and `Put` replaces it; and on the empty store the
NotFound probe is not an error. -/
theorem c1_witness :
    ((Put (Put st0 "a" [1] []).2.1 "a" [2] []).1 = .ok () ∧
      (Put (Put st0 "a" [1] []).2.1 "a" [2] []).2.1.files =
        (Put st0 "a" [1] []).2.1.files.filter (fun f => f.id != mkId 0) ++
          [⟨mkId ((Put st0 "a" [1] []).2.1.nextId), "a", "appDataFolder", [2]⟩]) ∧
    ((Put st0 "a" [3] []).1 = .ok () ∧
      (Put st0 "a" [3] []).2.1.files =
        st0.files ++ [⟨mkId st0.nextId, "a", "appDataFolder", [3]⟩]) := by
  constructor
  · have h := (c1_put_protocol (Put st0 "a" [1] []).2.1 "a" [2]
      (reach_inv (Reach.put "a" [1] [] Reach.init))).2.1 (mkId 0)
      (fileId (Put st0 "a" [1] []).2.1 "a" []).2.1
      (fileId (Put st0 "a" [1] []).2.1 "a" []).2.2 rfl
    simpa using h
  · have h := (c1_put_protocol st0 "a" [3] inv_st0).1
      (fileId st0 "a" []).2.1 (fileId st0 "a" []).2.2 rfl
    simpa using h

theorem mkId_bne_empty (n : Nat) : (mkId n != "") = true := by
  simp only [bne_iff_ne, ne_eq, decide_eq_true_eq]
  exact mkId_ne_empty n

/-- C2: storing v1 then v2 under the same reference and fetching it back
(with no other mutation and a healthy backend) returns v2: the last store
wins, and the old backend object is no longer reachable by that name. -/
theorem c2_last_store_wins (ref : String) (v1 v2 : List Nat) :
    (Put st0 ref v1 []).1 = .ok () ∧
    (Put (Put st0 ref v1 []).2.1 ref v2 []).1 = .ok () ∧
    (Download (Put (Put st0 ref v1 []).2.1 ref v2 []).2.1 ref []).1 = .ok v2 := by
  have h1 : Put st0 ref v1 [] =
      (.ok (), ⟨[⟨mkId 0, ref, "appDataFolder", v1⟩], 1, []⟩, []) := by
    unfold Put fileId
    simp [st0, lruGet, queryByName, Env.take, backendCreate]
  have h2 : Put (⟨[⟨mkId 0, ref, "appDataFolder", v1⟩], 1, []⟩ : St) ref v2 [] =
      (.ok (), ⟨[⟨mkId 1, ref, "appDataFolder", v2⟩], 2, []⟩, []) := by
    unfold Put fileId Delete fileId
    simp [lruGet, lruAdd, lruTouch, lruRemove, queryByName, Env.take,
      backendCreate, backendDelete, LRUSize, mkId_bne_empty, List.find?]
  have h3 : (Download (⟨[⟨mkId 1, ref, "appDataFolder", v2⟩], 2, []⟩ : St) ref []).1 =
      .ok v2 := by
    unfold Download fileId
    simp [lruGet, lruAdd, queryByName, Env.take, getContent, LRUSize, List.find?]
  rw [h1]
  simp only []
  rw [h2]
  simp only []
  rw [h3]
  simp

/-- C4: deleting a name that resolves to NotFound returns success (a
no-op); when the name does resolve, a backend delete failure makes the
operation fail with the IO kind while the cache entry for the name is left
intact (the final state is the resolution state, whose cache still holds
the id); the cache entry is removed only after the backend delete
succeeds (after any successful delete the cache holds nothing for the
name). -/
theorem c4_delete_contract (s : St) (ref : String) :
    (∀ (env : Env) (s1 : St) (env1 : Env),
      fileId s ref env = (.error .notExist, s1, env1) →
      Delete s ref env = (.ok (), s1, env1)) ∧
    (∀ (env : Env) (id : String) (s1 : St) (env2 : Env),
      fileId s ref env = (.ok id, s1, false :: env2) →
      (∃ e : Err, Delete s ref env = (.error e, s1, env2) ∧ e.kind = Kind.io) ∧
      lruGet s1.cacheE ref = some id) ∧
    (∀ (env env2 : Env) (u : Unit) (s2 : St),
      Delete s ref env = (.ok u, s2, env2) → lruGet s2.cacheE ref = none) := by
  refine ⟨?_, ?_, ?_⟩
  · intro env s1 env1 hf
    unfold Delete
    rw [hf]
  · intro env id s1 env2 hf
    refine ⟨⟨⟨"cloud/storage/drive.Download", .io⟩, ?_, rfl⟩, fileId_ok_cached hf⟩
    unfold Delete
    rw [hf]
    simp [Env.take]
  · intro env env2 u s2 hd
    exact delete_ok_cache_none hd

/-- Witness for C4: on the empty store deleting "a" is a successful no-op;
on a store holding "a", an injected backend-delete fault yields an IO error
with the cache entry intact, and a successful delete leaves no cache
entry. -/
theorem c4_witness :
    Delete st0 "a" [] = (.ok (), st0, []) ∧
    ((∃ e : Err, Delete (Put st0 "a" [1] []).2.1 "a" [true, false] =
        (.error e, (fileId (Put st0 "a" [1] []).2.1 "a" [true, false]).2.1, []) ∧
        e.kind = Kind.io) ∧
      lruGet (fileId (Put st0 "a" [1] []).2.1 "a" [true, false]).2.1.cacheE "a" =
        some (mkId 0)) ∧
    lruGet (Delete (Put st0 "a" [1] []).2.1 "a" []).2.1.cacheE "a" = none := by
  refine ⟨?_, ?_, ?_⟩
  · exact (c4_delete_contract st0 "a").1 [] st0 [] rfl
  · exact (c4_delete_contract (Put st0 "a" [1] []).2.1 "a").2.1 [true, false]
      (mkId 0) (fileId (Put st0 "a" [1] []).2.1 "a" [true, false]).2.1 [] rfl
  · exact (c4_delete_contract (Put st0 "a" [1] []).2.1 "a").2.2 []
      (Delete (Put st0 "a" [1] []).2.1 "a" []).2.2 ()
      (Delete (Put st0 "a" [1] []).2.1 "a" []).2.1 rfl

/-- C5: resolution returns the cached ID on a cache hit; on a miss, with
the backend query succeeding, an empty result of the exact-name query is a
NotFound failure, and a non-empty result makes it cache the first match's
ID and return that ID. -/
theorem c5_resolve (s : St) (name : String) (env : Env) :
    (∀ id, lruGet s.cacheE name = some id → (fileId s name env).1 = .ok id) ∧
    (lruGet s.cacheE name = none → env.take.1 = true →
      ((queryByName s name = [] →
        fileId s name env = (.error .notExist, s, env.take.2)) ∧
      (∀ id rest, queryByName s name = id :: rest →
        fileId s name env =
          (.ok id, { s with cacheE := lruAdd s.cacheE name id }, env.take.2)))) := by
  constructor
  · intro id hc
    unfold fileId
    rw [hc]
  · intro hc ht
    constructor
    · intro hq
      unfold fileId
      rw [hc]
      simp [ht, hq]
    · intro id rest hq
      unfold fileId
      rw [hc]
      simp [ht, hq]

/-- Witness for C5: a cache hit returns the cached id without touching the
backend; a miss on the one-object store queries, caches and returns the
first match; a miss on the empty store is NotFound. -/
theorem c5_witness :
    (fileId ⟨[], 0, [("a", mkId 5)]⟩ "a" []).1 = .ok (mkId 5) ∧
    fileId st0 "a" [] = (.error .notExist, st0, []) ∧
    fileId (Put st0 "a" [1] []).2.1 "a" [] =
      (.ok (mkId 0), { (Put st0 "a" [1] []).2.1 with
        cacheE := lruAdd (Put st0 "a" [1] []).2.1.cacheE "a" (mkId 0) }, []) := by
  refine ⟨?_, ?_, ?_⟩
  · exact (c5_resolve ⟨[], 0, [("a", mkId 5)]⟩ "a" []).1 (mkId 5) rfl
  · exact ((c5_resolve st0 "a" []).2 rfl rfl).1 rfl
  · exact ((c5_resolve (Put st0 "a" [1] []).2.1 "a" []).2 rfl rfl).2 (mkId 0) [] rfl

theorem getContent_some {s : St} {id : String} {v : List Nat}
    (h : getContent s id = some v) : ∃ f ∈ s.files, f.id = id ∧ f.content = v := by
  unfold getContent at h
  cases hf : s.files.find? (fun f => f.id == id) with
  | none => rw [hf] at h; simp at h
  | some f =>
    rw [hf] at h
    simp at h
    have hm := List.mem_of_find?_eq_some hf
    have hp := List.find?_some hf
    simp at hp
    exact ⟨f, hm, hp, h⟩

/-- C6: `Download` fails with the NotExist kind exactly when resolution
fails with NotFound; every failure carries the NotExist or IO kind, with
NotExist only in the resolution-NotFound case (so transport/backend errors
during resolution or content retrieval surface as IO); and on success it
returns the entire stored content of an object carrying the requested
name. -/
theorem c6_download (s : St) (ref : String) (env : Env) (hs : Inv s) :
    (((Download s ref env).1 =
        .error ⟨"cloud/storage/drive.Download", .notExist⟩) ↔
      (fileId s ref env).1 = .error .notExist) ∧
    (∀ e : Err, (Download s ref env).1 = .error e →
      e.kind = Kind.notExist ∨ e.kind = Kind.io) ∧
    (∀ e : Err, (Download s ref env).1 = .error e → e.kind = Kind.notExist →
      (fileId s ref env).1 = .error .notExist) ∧
    (∀ v : List Nat, (Download s ref env).1 = .ok v →
      ∃ f ∈ s.files, f.name = ref ∧ f.content = v) := by
  have hff := fileId_files s ref env
  unfold Download
  rcases hf : fileId s ref env with ⟨r, s1, env1⟩
  rw [hf] at hff
  rcases r with er | id
  · cases er
    · simp
    · simp
  · simp only []
    obtain ⟨g, hg, hgid, hgname⟩ := fileId_ok_named hs hf
    split
    · rcases hgc : getContent s1 id with _ | v
      · simp
      · simp only []
        split
        · simp only [Prod.fst]
          refine ⟨by simp, by simp, by simp, ?_⟩
          intro w hw
          simp at hw
          obtain ⟨f, hfm, hfid, hfc⟩ := getContent_some hgc
          have hfs : f ∈ s.files := hff.1 ▸ hfm
          have : f = g := hs.id_inj hfs hg (by rw [hfid, hgid])
          exact ⟨f, hfs, by rw [this, hgname], by rw [hfc, hw]⟩
        · simp
    · simp

/-- Witness for C6: on the store holding "a" ↦ [7, 8], downloading "a"
succeeds and the bytes are the full content of an object named "a". -/
theorem c6_witness :
    ∃ f ∈ (Put st0 "a" [7, 8] []).2.1.files, f.name = "a" ∧ f.content = [7, 8] :=
  (c6_download (Put st0 "a" [7, 8] []).2.1 "a" []
    (reach_inv (Reach.put "a" [7, 8] [] Reach.init))).2.2.2 [7, 8] rfl

theorem decode_encodeToken (i : Nat) : decodeToken (encodeToken i) = i := by
  simp [decodeToken, encodeToken]

theorem encodeToken_ne_empty {i : Nat} (h : 0 < i) : encodeToken i ≠ "" := by
  intro hc
  have hd := congrArg String.data hc
  simp [encodeToken] at hd
  omega

theorem listWalk_complete (s : St) :
    ∀ (fuel i : Nat), s.files.length ≤ i + listPageSize * fuel → 1 ≤ fuel →
    listWalk s (encodeToken i) fuel =
      (s.files.drop i).map (fun f => (f.id, f.content.length)) := by
  intro fuel
  induction fuel with
  | zero => intro i _ h1; omega
  | succ f ih =>
    intro i hlen _
    unfold listWalk
    simp only [listObjects, decode_encodeToken]
    by_cases hmore : i + listPageSize < s.files.length
    · have hne : encodeToken (i + listPageSize) ≠ "" := by
        apply encodeToken_ne_empty
        simp [listPageSize]
      rw [if_pos hmore]
      simp only [hne, if_false]
      have hf1 : 1 ≤ f := by
        by_contra hc
        push_neg at hc
        interval_cases f
        simp [listPageSize] at hlen hmore
        omega
      rw [ih (i + listPageSize) (by simp [listPageSize] at hlen ⊢; omega) hf1]
      rw [← List.map_append]
      congr 1
      rw [← List.drop_drop]
      exact List.take_append_drop _ _
    · rw [if_neg hmore]
      split
      · congr 1
        apply List.take_of_length_le
        rw [List.length_drop]
        omega
      · simp_all

/-- C7: the Lister's items each carry the BackendID and the size in bytes
of a stored object; the next token is empty exactly when the page reaches
the end of the enumeration; and following next tokens from the empty token
enumerates every stored object exactly once. -/
theorem c7_lister (s : St) :
    (∀ (t : String), ∀ p ∈ (listObjects s t).1,
      ∃ f ∈ s.files, p = (f.id, f.content.length)) ∧
    (∀ i : Nat, (listObjects s (encodeToken i)).2 = "" ↔
      s.files.length ≤ i + listPageSize) ∧
    listWalk s "" (s.files.length + 1) =
      s.files.map (fun f => (f.id, f.content.length)) := by
  refine ⟨?_, ?_, ?_⟩
  · intro t p hp
    simp only [listObjects] at hp
    rw [List.mem_map] at hp
    obtain ⟨f, hf, hpf⟩ := hp
    exact ⟨f, List.mem_of_mem_drop (List.mem_of_mem_take hf), hpf.symm⟩
  · intro i
    simp only [listObjects, decode_encodeToken]
    by_cases hmore : i + listPageSize < s.files.length
    · rw [if_pos hmore]
      constructor
      · intro hc
        exact absurd hc (encodeToken_ne_empty (by simp [listPageSize]))
      · intro hc
        omega
    · rw [if_neg hmore]
      simp
      omega
  · have h := listWalk_complete s (s.files.length + 1) 0
      (by simp [listPageSize]; omega) (by omega)
    rw [show encodeToken 0 = "" from rfl] at h
    simpa using h

/-- Witness for C7 on the one-object store: the single listed item carries
the object's id and size, and the next token is empty (final page). -/
theorem c7_witness :
    (∃ f ∈ (Put st0 "a" [7, 8] []).2.1.files, ((mkId 0 : String), (2 : Nat)) =
      (f.id, f.content.length)) ∧
    ((listObjects (Put st0 "a" [7, 8] []).2.1 (encodeToken 0)).2 = "" ↔
      (Put st0 "a" [7, 8] []).2.1.files.length ≤ 0 + listPageSize) := by
  constructor
  · exact (c7_lister (Put st0 "a" [7, 8] []).2.1).1 "" (mkId 0, 2) (by decide)
  · exact (c7_lister (Put st0 "a" [7, 8] []).2.1).2.1 0

/-- C8: construction fails with the Invalid-configuration error (the kind
the code attaches to bad construction options, on the New operation)
whenever any of the four credential options is missing — a missing expiry
looks up as the empty string, which the RFC3339 parser rejects — or the
expiry is present but malformed (the parser rejects it). -/
theorem c8_new_validation (parse : String → Option Nat) (svcOk : Bool)
    (opts : List (String × String)) (hparse : parse "" = none) :
    (lookupOpt opts "accessToken" = none ∨ lookupOpt opts "tokenType" = none ∨
      lookupOpt opts "refreshToken" = none ∨ lookupOpt opts "expiry" = none ∨
      parse ((lookupOpt opts "expiry").getD "") = none) →
    New parse svcOk opts = .error ⟨"cloud/storage/drive.New", Kind.internal⟩ := by
  intro h
  unfold New
  cases ha : lookupOpt opts "accessToken" with
  | none => rfl
  | some a =>
    cases ht : lookupOpt opts "tokenType" with
    | none => rfl
    | some t =>
      cases hr : lookupOpt opts "refreshToken" with
      | none => rfl
      | some rt =>
        cases he : lookupOpt opts "expiry" with
        | none => simp [hparse]
        | some eStr =>
          rcases h with h | h | h | h | h
          · rw [ha] at h; cases h
          · rw [ht] at h; cases h
          · rw [hr] at h; cases h
          · rw [he] at h; cases h
          · rw [he] at h
            simp only [Option.getD_some] at h
            simp [h]

/-- Witness for C8: with no options at all (and an RFC3339 parser that
rejects the empty string), construction fails with the internal kind on
the New operation. -/
theorem c8_witness :
    New (fun _ => none) true [] = .error ⟨"cloud/storage/drive.New", Kind.internal⟩ :=
  c8_new_validation (fun _ => none) true [] rfl (Or.inl rfl)

/-- C9 (bug demonstration): when the backend delete of an existing object
fails, `Delete` returns an error whose operation context is the string
"cloud/storage/drive.Download" — the `op` constant inside the Go `Delete`
holds the Download string — which differs from the Delete operation name,
so the wrapped context misidentifies which logical operation failed. -/
theorem c9_delete_mislabeled :
    (Delete (Put st0 "a" [1] []).2.1 "a" [true, false]).1 =
      .error ⟨"cloud/storage/drive.Download", Kind.io⟩ ∧
    "cloud/storage/drive.Download" ≠ "cloud/storage/drive.Delete" :=
  ⟨rfl, by decide⟩

/-! ## C10: the interpolated query filter -/

theorem takeNoQuote_no_quote {xs : List Char} (h : '\'' ∉ xs) :
    takeNoQuote (xs ++ ['\'']) = xs := by
  induction xs with
  | nil => simp [takeNoQuote]
  | cons c cs ih =>
    rw [List.mem_cons] at h
    push_neg at h
    have hc : c ≠ '\'' := fun hc => h.1 hc.symm
    simp only [List.cons_append, takeNoQuote, if_neg hc]
    exact congrArg (List.cons c) (ih h.2)

theorem dropNoQuote_no_quote {xs : List Char} (h : '\'' ∉ xs) :
    dropNoQuote (xs ++ ['\'']) = ['\''] := by
  induction xs with
  | nil => simp [dropNoQuote]
  | cons c cs ih =>
    rw [List.mem_cons] at h
    push_neg at h
    have hc : c ≠ '\'' := fun hc => h.1 hc.symm
    simp only [List.cons_append, dropNoQuote, if_neg hc]
    exact ih h.2

theorem dropNoQuote_with_quote {xs : List Char} (h : '\'' ∈ xs) :
    ∃ t, dropNoQuote (xs ++ ['\'']) = '\'' :: t ∧ t ≠ [] := by
  induction xs with
  | nil => cases h
  | cons c cs ih =>
    by_cases hc : c = '\''
    · subst hc
      exact ⟨cs ++ ['\''], by simp [dropNoQuote], by simp⟩
    · rw [List.mem_cons] at h
      rcases h with h | h
      · exact absurd h.symm hc
      · simp only [List.cons_append, dropNoQuote, if_neg hc]
        exact ih h

theorem parse_mkQuery (name : List Char) :
    parseNameQuery (mkQuery name) =
      if dropNoQuote (name ++ ['\'']) = ['\'']
      then some (takeNoQuote (name ++ ['\''])) else none := by
  unfold parseNameQuery mkQuery
  have hpre : "name='".data.isPrefixOf ("name='".data ++ name ++ ['\'']) = true := by
    rw [ List.isPrefixOf_iff_prefix, List.append_assoc]
    exact List.prefix_append _ _
  rw [if_pos hpre]
  have hdrop : ("name='".data ++ name ++ ['\'']).drop 6 = name ++ ['\''] := by
    rw [List.append_assoc]
    exact List.drop_left' (by rfl)
  rw [hdrop]

/-- C10: the filter string sent to the backend is built by interpolating
the reference between the quotes of name='...'; the result is a
well-formed exact-name filter matching exactly the reference precisely
when the reference contains no single quote; for any reference containing
a single quote, the built string is not the exact-name filter of that
reference (its parse as an exact-name filter fails). -/
theorem c10_query_interpolation (name : List Char) :
    ('\'' ∉ name → parseNameQuery (mkQuery name) = some name) ∧
    ('\'' ∈ name → parseNameQuery (mkQuery name) = none) := by
  constructor
  · intro h
    rw [parse_mkQuery, if_pos (dropNoQuote_no_quote h), takeNoQuote_no_quote h]
  · intro h
    obtain ⟨t, ht, htne⟩ := dropNoQuote_with_quote h
    rw [parse_mkQuery, if_neg]
    rw [ht]
    intro hc
    rw [List.cons_eq_cons] at hc
    exact htne hc.2

/-- Witness for C10: the quote-free name ab parses back exactly; the name
a'b (with a single quote) does not parse as an exact-name filter. -/
theorem c10_witness :
    parseNameQuery (mkQuery ['a', 'b']) = some ['a', 'b'] ∧
    parseNameQuery (mkQuery ['a', '\'', 'b']) = none :=
  ⟨(c10_query_interpolation ['a', 'b']).1 (by decide),
   (c10_query_interpolation ['a', '\'', 'b']).2 (by decide)⟩

end Drive
